import Mathlib

/-!
Verification of the Hospitech HT-810 dashboard core (frontend `App.jsx`):
the time-series alignment, range filtering, upload orchestration,
visibility/stats selection and selection-limit logic.

Machine representation choices:
* Timestamps are calendar instants `DateTime` (year/month/day/hour/minute);
  `dayjs` comparisons (`isBefore`/`isSame`/`isAfter`) become lexicographic
  comparisons of the fields.
* The chart label format "DD/MM HH:mm" drops the year (`ChartLabel`); the
  table label format "DD/MM/YYYY HH:mm" keeps it (`TableLabel`).
* Temperatures and statistics payloads are carried opaquely (modelled as
  `Int`); the core never computes with them, only copies them.
* A JavaScript `Map` in insertion order is a `List Row` with unique keys,
  appended at the back on first insertion; a plain object used as a
  string-keyed dictionary is an association list with in-place overwrite
  (`setKey`).
-/

/-- A calendar instant at minute granularity, as handled by dayjs. -/
structure DateTime where
  year : Nat
  month : Nat
  day : Nat
  hour : Nat
  minute : Nat
deriving DecidableEq, Repr

/-- `dayjs(a).isBefore(b)`: lexicographic strict order on the fields. -/
def DateTime.isBefore (a b : DateTime) : Bool :=
  Nat.blt a.year b.year ||
  (a.year == b.year && (Nat.blt a.month b.month ||
  (a.month == b.month && (Nat.blt a.day b.day ||
  (a.day == b.day && (Nat.blt a.hour b.hour ||
  (a.hour == b.hour && Nat.blt a.minute b.minute)))))))

/-- `dayjs(a).isSame(b)`: both denote the same instant. -/
def DateTime.isSame (a b : DateTime) : Bool := a == b

/-- `dayjs(a).isAfter(b)`. -/
def DateTime.isAfter (a b : DateTime) : Bool := DateTime.isBefore b a

/-- The mathematical strict order on instants (spec side, for `t < u`). -/
def DateTime.lexLt (a b : DateTime) : Prop :=
  a.year < b.year ∨ (a.year = b.year ∧ (a.month < b.month ∨ (a.month = b.month ∧
    (a.day < b.day ∨ (a.day = b.day ∧ (a.hour < b.hour ∨ (a.hour = b.hour ∧
    a.minute < b.minute)))))))

/-- The mathematical order on instants (spec side, for `t ≤ u`). -/
def DateTime.lexLe (a b : DateTime) : Prop := DateTime.lexLt a b ∨ a = b

/-- The label `dayjs(t).format("DD/MM HH:mm")` used to key chart rows.
The year is NOT part of this label. -/
structure ChartLabel where
  day : Nat
  month : Nat
  hour : Nat
  minute : Nat
deriving DecidableEq, Repr

def chartLabel (t : DateTime) : ChartLabel :=
  ⟨t.day, t.month, t.hour, t.minute⟩

/-- The label `dayjs(t).format("DD/MM/YYYY HH:mm")` used on table rows. -/
structure TableLabel where
  day : Nat
  month : Nat
  year : Nat
  hour : Nat
  minute : Nat
deriving DecidableEq, Repr

def tableLabel (t : DateTime) : TableLabel :=
  ⟨t.day, t.month, t.year, t.hour, t.minute⟩

/-- Temperature payload; carried opaquely by the core. -/
abbrev Temp := Int

/-- One `{timestamp, temperature}` sample as returned by `/api/upload`. -/
structure RawSample where
  timestamp : DateTime
  temperature : Temp
deriving DecidableEq, Repr

/-- A chart sample after shaping in `onUpload`: the raw fields plus
`timeLabel = dayjs(timestamp).format("DD/MM HH:mm")`. -/
structure ChartSample where
  timestamp : DateTime
  temperature : Temp
  timeLabel : ChartLabel
deriving DecidableEq, Repr

def shapeChart (d : RawSample) : ChartSample :=
  ⟨d.timestamp, d.temperature, chartLabel d.timestamp⟩

/-- A resampled (hourly) sample after shaping in `onUpload`: raw fields plus
`timeLabel = dayjs(timestamp).format("DD/MM/YYYY HH:mm")`. -/
structure TableSample where
  timestamp : DateTime
  temperature : Temp
  timeLabel : TableLabel
deriving DecidableEq, Repr

def shapeTable (d : RawSample) : TableSample :=
  ⟨d.timestamp, d.temperature, tableLabel d.timestamp⟩

/-- `stats` as returned by the server (min/avg/max/start/end). -/
structure Stats where
  min : Temp
  avg : Temp
  max : Temp
  start : DateTime
  «end» : DateTime
deriving DecidableEq, Repr

/-- One uploaded file's processed result, as pushed onto `results` in
`onUpload`. -/
structure Series where
  id : Nat
  name : String
  color : String
  data : List ChartSample
  resampled : List TableSample
  stats : Option Stats
deriving DecidableEq, Repr

/-- `dateRange` state: each bound is an optional date-time (the empty string
in the inputs stands for `none`). -/
structure DateRange where
  start : Option DateTime
  «end» : Option DateTime
deriving DecidableEq, Repr

/-- The period predicate inside `mergedData`'s filter (App.jsx lines 151-159):
`afterStart && beforeEnd` with each side disabled when its bound is absent. -/
def rangeOk (dr : DateRange) (t : DateTime) : Bool :=
  (match dr.start with
   | some s => t.isAfter s || t.isSame s
   | none => true) &&
  (match dr.«end» with
   | some e => t.isBefore e || t.isSame e
   | none => true)

/-- The period predicate inside `resampledBySeries` (App.jsx lines 176-181):
`okStart && okEnd`, written separately in the source. -/
def resampleOk (dr : DateRange) (t : DateTime) : Bool :=
  (match dr.start with
   | some s => t.isAfter s || t.isSame s
   | none => true) &&
  (match dr.«end» with
   | some e => t.isBefore e || t.isSame e
   | none => true)

/-- What the spec's §4.1 contract asks of the filter at instant `t`:
(`start` absent or `t ≥ start`) and (`end` absent or `t ≤ end`). -/
def rangeSpec (dr : DateRange) (t : DateTime) : Prop :=
  (∀ s, dr.start = some s → DateTime.lexLe s t) ∧
  (∀ e, dr.«end» = some e → DateTime.lexLe t e)

theorem isBefore_iff_lexLt (a b : DateTime) :
    a.isBefore b = true ↔ a.lexLt b := by
  unfold DateTime.isBefore DateTime.lexLt
  simp only [Bool.or_eq_true, Bool.and_eq_true, beq_iff_eq, Nat.blt_eq]

theorem isAfter_or_isSame_iff_lexLe (t s : DateTime) :
    t.isAfter s = true ∨ t.isSame s = true ↔ s.lexLe t := by
  unfold DateTime.isAfter DateTime.isSame DateTime.lexLe
  rw [isBefore_iff_lexLt]
  simp only [beq_iff_eq]
  exact or_congr Iff.rfl ⟨Eq.symm, Eq.symm⟩

theorem isBefore_or_isSame_iff_lexLe (t e : DateTime) :
    t.isBefore e = true ∨ t.isSame e = true ↔ t.lexLe e := by
  unfold DateTime.isSame DateTime.lexLe
  rw [isBefore_iff_lexLt]
  simp

/-- C2: the filter accepts `t` iff (`start` absent or `t ≥ start`) and
(`end` absent or `t ≤ end`) — both bounds inclusive — and this holds for the
chart-row predicate (`rangeOk`) and for the resampled-sample predicate
(`resampleOk`) alike. -/
theorem rangeFilter_inclusive_bounds (dr : DateRange) (t : DateTime) :
    (rangeOk dr t = true ↔ rangeSpec dr t) ∧
    (resampleOk dr t = true ↔ rangeSpec dr t) := by
  constructor <;>
  · rcases dr with ⟨st, en⟩
    cases st <;> cases en <;>
      simp [rangeOk, resampleOk, rangeSpec,
        isAfter_or_isSame_iff_lexLe, isBefore_or_isSame_iff_lexLe, and_comm]

/-- A chart Row: one entry of the label-keyed `Map` in `mergedData`.
`values` is the object's own dynamic properties `row[seriesName]`, in
property-creation order, overwritten in place. -/
structure Row where
  timeLabel : ChartLabel
  timestamp : DateTime
  values : List (String × Temp)
deriving DecidableEq, Repr

/-- JavaScript object property assignment `obj[k] = v`: overwrite in place
when the key exists, else append the key at the back. -/
def setKey {α : Type} (k : String) (v : α) : List (String × α) → List (String × α)
  | [] => [(k, v)]
  | (k2, v2) :: rest =>
    if k2 = k then (k, v) :: rest else (k2, v2) :: setKey k v rest

/-- JavaScript object property read `obj[k]` (`none` for an absent key). -/
def getKey {α : Type} (k : String) : List (String × α) → Option α
  | [] => none
  | (k2, v2) :: rest => if k2 = k then some v2 else getKey k rest

/-- One step of `mergedData`'s merge loop body for sample `d` of the series
named `name`: if no row carries `d.timeLabel`, append a fresh
`{timeLabel, timestamp}` row at the back (Map insertion order); then set
`row[name] = d.temperature` on the row carrying that label. -/
def addToRows (name : String) (d : ChartSample) : List Row → List Row
  | [] => [⟨d.timeLabel, d.timestamp, [(name, d.temperature)]⟩]
  | r :: rest =>
    if r.timeLabel = d.timeLabel then
      { r with values := setKey name d.temperature r.values } :: rest
    else r :: addToRows name d rest

/-- `s.data.forEach(d => ...)` of the merge loop. -/
def mergeSeries (s : Series) (rows : List Row) : List Row :=
  s.data.foldl (fun acc d => addToRows s.name d acc) rows

/-- The full merge `series.forEach(s => s.data.forEach(d => ...))` followed by
`Array.from(all.values())`: the rows in map-insertion order, unfiltered. -/
def mergeRows (series : List Series) : List Row :=
  series.foldl (fun acc s => mergeSeries s acc) []

/-- The period-filter stage of `mergedData`: filters only when at least one
bound is set (`if (dateRange.start || dateRange.end)`). -/
def applyRangeFilter (dr : DateRange) (arr : List Row) : List Row :=
  if dr.start.isSome || dr.«end».isSome then
    arr.filter (fun row => rangeOk dr row.timestamp)
  else arr

/-- `mergedData`: merge, then period filter. -/
def mergedData (series : List Series) (dr : DateRange) : List Row :=
  applyRangeFilter dr (mergeRows series)

/-- C6: with both bounds absent the filter stage returns its input unchanged;
an absent `start` alone leaves only the upper-bound test, and an absent `end`
alone leaves only the lower-bound test. -/
theorem rangeFilter_identity_and_single_sides (arr : List Row) (s e : DateTime) :
    applyRangeFilter ⟨none, none⟩ arr = arr ∧
    applyRangeFilter ⟨some s, none⟩ arr =
      arr.filter (fun row =>
        row.timestamp.isAfter s || row.timestamp.isSame s) ∧
    applyRangeFilter ⟨none, some e⟩ arr =
      arr.filter (fun row =>
        row.timestamp.isBefore e || row.timestamp.isSame e) := by
  refine ⟨rfl, ?_, ?_⟩ <;> simp [applyRangeFilter, rangeOk]

/-- Value of column `k` of the (first) row keyed `lbl` in a row list. -/
def valAt (lbl : ChartLabel) (k : String) : List Row → Option Temp
  | [] => none
  | r :: rest => if r.timeLabel = lbl then getKey k r.values else valAt lbl k rest

/-- `timestamp` of the (first) row keyed `lbl` in a row list. -/
def tsAt (lbl : ChartLabel) : List Row → Option DateTime
  | [] => none
  | r :: rest => if r.timeLabel = lbl then some r.timestamp else tsAt lbl rest

/-- The label column of a row list. -/
def rowLabels (rows : List Row) : List ChartLabel := rows.map Row.timeLabel

/-- Spec-side first-encounter recording: append a label only the first time
it is seen. -/
def insertLbl (ls : List ChartLabel) (l : ChartLabel) : List ChartLabel :=
  if l ∈ ls then ls else ls ++ [l]

/-- The labels of a traversal in first-encounter order. -/
def firstEncounter (xs : List ChartLabel) : List ChartLabel :=
  xs.foldl insertLbl []

/-- Temperature of the last sample of `data` whose chart label is `lbl`. -/
def lastTemp (lbl : ChartLabel) : List ChartSample → Option Temp
  | [] => none
  | d :: rest =>
    match lastTemp lbl rest with
    | some v => some v
    | none => if d.timeLabel = lbl then some d.temperature else none

/-- Timestamp of the first sample of `data` whose chart label is `lbl`. -/
def firstTs (lbl : ChartLabel) : List ChartSample → Option DateTime
  | [] => none
  | d :: rest => if d.timeLabel = lbl then some d.timestamp else firstTs lbl rest

/-- The value the whole merge loop leaves in column `k` of the row keyed
`lbl`: the write of the last series named `k` that has a sample labelled
`lbl` (later series override earlier ones of the same name). -/
def lastWrite (k : String) (lbl : ChartLabel) : List Series → Option Temp
  | [] => none
  | s :: rest =>
    match lastWrite k lbl rest with
    | some v => some v
    | none => if s.name = k then lastTemp lbl s.data else none

theorem getKey_setKey {α : Type} (k n : String) (v : α)
    (l : List (String × α)) :
    getKey k (setKey n v l) = if n = k then some v else getKey k l := by
  induction l with
  | nil => simp [setKey, getKey]
  | cons p rest ih =>
      obtain ⟨k2, v2⟩ := p
      simp only [setKey]
      by_cases h1 : k2 = n
      · subst h1
        by_cases h2 : k2 = k <;> simp [h2, getKey]
      · by_cases h2 : k2 = k
        · have hnk : ¬ n = k := fun h => h1 (h2.trans h.symm)
          have hkn : ¬ k = n := fun h => h1 (h2.trans h)
          simp [h1, h2, hnk, hkn, getKey]
        · simp [h1, h2, getKey, ih]

theorem valAt_addToRows (n : String) (d : ChartSample) (rows : List Row)
    (lbl : ChartLabel) (k : String) :
    valAt lbl k (addToRows n d rows) =
      if d.timeLabel = lbl ∧ n = k then some d.temperature
      else valAt lbl k rows := by
  induction rows with
  | nil =>
      by_cases h1 : d.timeLabel = lbl
      · by_cases h2 : n = k <;>
          simp [addToRows, valAt, getKey, h1, h2]
      · simp [addToRows, valAt, h1]
  | cons r rest ih =>
      by_cases hr : r.timeLabel = d.timeLabel
      · by_cases h1 : d.timeLabel = lbl
        · by_cases h2 : n = k <;>
            simp [addToRows, valAt, hr, h1, h2, getKey_setKey, hr.trans h1]
        · have : ¬ r.timeLabel = lbl := fun h => h1 (hr ▸ h)
          simp [addToRows, valAt, hr, h1, this]
      · by_cases h1 : r.timeLabel = lbl
        · have h2 : ¬ d.timeLabel = lbl := fun h => hr (h1.trans h.symm)
          have h3 : ¬ lbl = d.timeLabel := fun h => h2 h.symm
          simp [addToRows, valAt, hr, h1, h2, h3]
        · simp [addToRows, valAt, hr, h1, ih]

theorem tsAt_addToRows (n : String) (d : ChartSample) (rows : List Row)
    (lbl : ChartLabel) :
    tsAt lbl (addToRows n d rows) =
      match tsAt lbl rows with
      | some ts => some ts
      | none => if d.timeLabel = lbl then some d.timestamp else none := by
  induction rows with
  | nil => by_cases h1 : d.timeLabel = lbl <;> simp [addToRows, tsAt, h1]
  | cons r rest ih =>
      by_cases hr : r.timeLabel = d.timeLabel
      · by_cases h1 : d.timeLabel = lbl
        · have hrl : r.timeLabel = lbl := hr.trans h1
          simp [addToRows, tsAt, hr, h1, hrl]
        · have hrl : ¬ r.timeLabel = lbl := fun h => h1 (hr.symm.trans h)
          cases hts : tsAt lbl rest <;>
            simp [addToRows, tsAt, hr, h1, hrl, hts]
      · by_cases h1 : r.timeLabel = lbl
        · have h2 : ¬ d.timeLabel = lbl := fun h => hr (h1.trans h.symm)
          have h3 : ¬ lbl = d.timeLabel := fun h => h2 h.symm
          simp [addToRows, tsAt, hr, h1, h2, h3]
        · simp [addToRows, tsAt, hr, h1, ih]

theorem rowLabels_addToRows (n : String) (d : ChartSample)
    (rows : List Row) :
    rowLabels (addToRows n d rows) = insertLbl (rowLabels rows) d.timeLabel := by
  induction rows with
  | nil => simp [addToRows, rowLabels, insertLbl]
  | cons r rest ih =>
      by_cases hr : r.timeLabel = d.timeLabel
      · have hmem : d.timeLabel ∈ rowLabels (r :: rest) := by
          simp [rowLabels]
          exact Or.inl hr.symm
        simp [addToRows, rowLabels, insertLbl, hr, hmem]
      · have hne : ¬ d.timeLabel = r.timeLabel := fun h => hr h.symm
        have hstep : rowLabels (addToRows n d (r :: rest)) =
            r.timeLabel :: rowLabels (addToRows n d rest) := by
          simp [addToRows, hr, rowLabels]
        rw [hstep, ih]
        unfold insertLbl
        by_cases hm : d.timeLabel ∈ rowLabels rest
        · have hm2 : d.timeLabel ∈ rowLabels (r :: rest) := by
            simp [rowLabels] at hm ⊢
            exact Or.inr hm
          rw [if_pos hm, if_pos hm2]
          simp [rowLabels]
        · have hm2 : d.timeLabel ∉ rowLabels (r :: rest) := by
            simp [rowLabels] at hm ⊢
            exact ⟨hne, hm⟩
          rw [if_neg hm, if_neg hm2]
          simp [rowLabels]

theorem valAt_foldAdd (name : String) (data : List ChartSample)
    (rows : List Row) (lbl : ChartLabel) (k : String) :
    valAt lbl k (data.foldl (fun acc d => addToRows name d acc) rows) =
      match (if name = k then lastTemp lbl data else none) with
      | some v => some v
      | none => valAt lbl k rows := by
  induction data generalizing rows with
  | nil => simp [lastTemp]
  | cons d rest ih =>
      rw [List.foldl_cons, ih]
      by_cases hk : name = k
      · cases hlt : lastTemp lbl rest with
        | some v => simp [lastTemp, hlt, hk]
        | none =>
            by_cases hd : d.timeLabel = lbl <;>
              simp [valAt_addToRows, lastTemp, hlt, hd, hk]
      · simp [valAt_addToRows, hk]

theorem valAt_merge_fold (series : List Series) (rows : List Row)
    (lbl : ChartLabel) (k : String) :
    valAt lbl k (series.foldl (fun acc s => mergeSeries s acc) rows) =
      match lastWrite k lbl series with
      | some v => some v
      | none => valAt lbl k rows := by
  induction series generalizing rows with
  | nil => simp [lastWrite]
  | cons s rest ih =>
      rw [List.foldl_cons, ih]
      cases hlw : lastWrite k lbl rest with
      | some v => simp [lastWrite, hlw]
      | none =>
          by_cases hs : s.name = k
          · cases hl2 : lastTemp lbl s.data <;>
              simp [mergeSeries, valAt_foldAdd, lastWrite, hlw, hs, hl2]
          · simp [mergeSeries, valAt_foldAdd, lastWrite, hlw, hs]

theorem valAt_mergeRows (series : List Series) (lbl : ChartLabel)
    (k : String) :
    valAt lbl k (mergeRows series) = lastWrite k lbl series := by
  unfold mergeRows
  rw [valAt_merge_fold]
  cases lastWrite k lbl series <;> simp [valAt]

theorem firstTs_append (lbl : ChartLabel) (xs ys : List ChartSample) :
    firstTs lbl (xs ++ ys) =
      match firstTs lbl xs with
      | some t => some t
      | none => firstTs lbl ys := by
  induction xs with
  | nil => simp [firstTs]
  | cons d rest ih =>
      by_cases hd : d.timeLabel = lbl <;> simp [firstTs, hd, ih]

theorem tsAt_foldAdd (name : String) (data : List ChartSample)
    (rows : List Row) (lbl : ChartLabel) :
    tsAt lbl (data.foldl (fun acc d => addToRows name d acc) rows) =
      match tsAt lbl rows with
      | some ts => some ts
      | none => firstTs lbl data := by
  induction data generalizing rows with
  | nil => cases hts : tsAt lbl rows <;> simp [firstTs, hts]
  | cons d rest ih =>
      rw [List.foldl_cons, ih, tsAt_addToRows]
      cases hts : tsAt lbl rows with
      | some ts => simp
      | none => by_cases hd : d.timeLabel = lbl <;> simp [firstTs, hd]

theorem tsAt_merge_fold (series : List Series) (rows : List Row)
    (lbl : ChartLabel) :
    tsAt lbl (series.foldl (fun acc s => mergeSeries s acc) rows) =
      match tsAt lbl rows with
      | some ts => some ts
      | none => firstTs lbl (series.flatMap Series.data) := by
  induction series generalizing rows with
  | nil => cases hts : tsAt lbl rows <;> simp [firstTs, hts]
  | cons s rest ih =>
      rw [List.foldl_cons, ih]
      unfold mergeSeries
      rw [tsAt_foldAdd]
      cases hts : tsAt lbl rows with
      | some ts => simp [hts]
      | none =>
          cases hf : firstTs lbl s.data <;>
            simp [List.flatMap_cons, firstTs_append, hf]

theorem tsAt_mergeRows (series : List Series) (lbl : ChartLabel) :
    tsAt lbl (mergeRows series) = firstTs lbl (series.flatMap Series.data) := by
  unfold mergeRows
  rw [tsAt_merge_fold]
  cases firstTs lbl (series.flatMap Series.data) <;> simp [tsAt]

theorem rowLabels_foldAdd (name : String) (data : List ChartSample)
    (rows : List Row) :
    rowLabels (data.foldl (fun acc d => addToRows name d acc) rows) =
      (data.map ChartSample.timeLabel).foldl insertLbl (rowLabels rows) := by
  induction data generalizing rows with
  | nil => rfl
  | cons d rest ih => rw [List.foldl_cons, ih, rowLabels_addToRows]; rfl

theorem rowLabels_merge_fold (series : List Series) (rows : List Row) :
    rowLabels (series.foldl (fun acc s => mergeSeries s acc) rows) =
      ((series.flatMap Series.data).map ChartSample.timeLabel).foldl
        insertLbl (rowLabels rows) := by
  induction series generalizing rows with
  | nil => rfl
  | cons s rest ih =>
      rw [List.foldl_cons, ih]
      unfold mergeSeries
      rw [rowLabels_foldAdd, List.flatMap_cons, List.map_append,
        List.foldl_append]

theorem rowLabels_mergeRows (series : List Series) :
    rowLabels (mergeRows series) =
      firstEncounter ((series.flatMap Series.data).map ChartSample.timeLabel) := by
  unfold mergeRows firstEncounter
  rw [rowLabels_merge_fold]
  rfl

theorem insertLbl_nodup (ls : List ChartLabel) (l : ChartLabel)
    (h : ls.Nodup) : (insertLbl ls l).Nodup := by
  unfold insertLbl
  by_cases hm : l ∈ ls
  · simpa [hm] using h
  · simp [hm, List.nodup_append, h]

theorem foldl_insertLbl_nodup (xs : List ChartLabel)
    (acc : List ChartLabel) (h : acc.Nodup) :
    (xs.foldl insertLbl acc).Nodup := by
  induction xs generalizing acc with
  | nil => exact h
  | cons x rest ih => exact ih _ (insertLbl_nodup acc x h)

theorem rowLabels_mergeRows_nodup (series : List Series) :
    (rowLabels (mergeRows series)).Nodup := by
  rw [rowLabels_mergeRows]
  exact foldl_insertLbl_nodup _ _ List.nodup_nil

theorem tsAt_of_mem_nodup (rows : List Row)
    (h : (rowLabels rows).Nodup) (r : Row) (hr : r ∈ rows) :
    tsAt r.timeLabel rows = some r.timestamp := by
  induction rows with
  | nil => cases hr
  | cons r0 rest ih =>
      rcases List.mem_cons.mp hr with h0 | h0
      · subst h0; simp [tsAt]
      · have hne : ¬ r0.timeLabel = r.timeLabel := by
          intro he
          have hmem : r.timeLabel ∈ rowLabels rest :=
            List.mem_map_of_mem Row.timeLabel h0
          have : r0.timeLabel ∉ rowLabels rest :=
            (List.nodup_cons.mp h).1
          exact this (he ▸ hmem)
        have hnd : (rowLabels rest).Nodup := (List.nodup_cons.mp h).2
        simp [tsAt, hne, ih hnd h0]

theorem row_eq_of_label_eq (rows : List Row)
    (h : (rowLabels rows).Nodup) (r1 r2 : Row)
    (h1 : r1 ∈ rows) (h2 : r2 ∈ rows)
    (hl : r1.timeLabel = r2.timeLabel) : r1 = r2 :=
  List.inj_on_of_nodup_map h h1 h2 hl

theorem valAt_some_exists (rows : List Row) (lbl : ChartLabel)
    (k : String) (v : Temp) (h : valAt lbl k rows = some v) :
    ∃ r ∈ rows, r.timeLabel = lbl ∧ getKey k r.values = some v := by
  induction rows with
  | nil => simp [valAt] at h
  | cons r rest ih =>
      by_cases hl : r.timeLabel = lbl
      · exact ⟨r, List.mem_cons_self r rest, hl, by simpa [valAt, hl] using h⟩
      · obtain ⟨r2, hm, he⟩ := ih (by simpa [valAt, hl] using h)
        exact ⟨r2, List.mem_cons_of_mem r hm, he⟩

theorem lastWrite_none_of_not_named (k : String) (lbl : ChartLabel)
    (l : List Series) (h : ∀ x ∈ l, x.name ≠ k) :
    lastWrite k lbl l = none := by
  induction l with
  | nil => rfl
  | cons s rest ih =>
      have hs : ¬ s.name = k := h s (List.mem_cons_self s rest)
      have hr : lastWrite k lbl rest = none :=
        ih fun x hx => h x (List.mem_cons_of_mem s hx)
      simp [lastWrite, hr, hs]

theorem lastWrite_eq_lastTemp (series : List Series) (lbl : ChartLabel)
    (hnd : (series.map Series.name).Nodup) (s : Series) (hs : s ∈ series) :
    lastWrite s.name lbl series = lastTemp lbl s.data := by
  induction series with
  | nil => cases hs
  | cons s0 rest ih =>
      have hhead : s0.name ∉ rest.map Series.name :=
        (List.nodup_cons.mp hnd).1
      have hnd2 : (rest.map Series.name).Nodup := (List.nodup_cons.mp hnd).2
      rcases List.mem_cons.mp hs with h0 | h0
      · subst h0
        have hnone : lastWrite s.name lbl rest = none := by
          refine lastWrite_none_of_not_named s.name lbl rest fun x hx hxe => ?_
          exact hhead (hxe ▸ List.mem_map_of_mem Series.name hx)
        simp [lastWrite, hnone]
      · have hne : ¬ s0.name = s.name := by
          intro he
          exact hhead (he ▸ List.mem_map_of_mem Series.name h0)
        rw [lastWrite, ih hnd2 h0]
        cases hl : lastTemp lbl s.data <;> simp [hne]

theorem lastTemp_isSome_of_mem (data : List ChartSample)
    (d : ChartSample) (hd : d ∈ data) :
    ∃ v, lastTemp d.timeLabel data = some v := by
  induction data with
  | nil => cases hd
  | cons d0 rest ih =>
      cases hlt : lastTemp d.timeLabel rest with
      | some v => exact ⟨v, by simp [lastTemp, hlt]⟩
      | none =>
          rcases List.mem_cons.mp hd with h0 | h0
          · subst h0
            exact ⟨d.temperature, by simp [lastTemp, hlt]⟩
          · obtain ⟨v, hv⟩ := ih h0
            rw [hv] at hlt
            cases hlt

/-- C3: with the batch's series names unique (the data model's stated
requirement on filenames), every `(series.name, timeLabel)` pair present in a
series' samples appears as a non-absent key in exactly one merged Row with
that `timeLabel`, and the value stored there is the temperature of the last
sample of that series carrying that label (last write per series wins). -/
theorem mergeRows_complete_last_write (series : List Series)
    (hnd : (series.map Series.name).Nodup) (s : Series) (hs : s ∈ series)
    (d : ChartSample) (hd : d ∈ s.data) :
    ∃ v, lastTemp d.timeLabel s.data = some v ∧
      (∃ r ∈ mergeRows series, r.timeLabel = d.timeLabel ∧
        getKey s.name r.values = some v) ∧
      ∀ r1 ∈ mergeRows series, ∀ r2 ∈ mergeRows series,
        r1.timeLabel = d.timeLabel → r2.timeLabel = d.timeLabel → r1 = r2 := by
  obtain ⟨v, hv⟩ := lastTemp_isSome_of_mem s.data d hd
  refine ⟨v, hv, ?_, ?_⟩
  · have h1 : valAt d.timeLabel s.name (mergeRows series) = some v := by
      rw [valAt_mergeRows, lastWrite_eq_lastTemp series d.timeLabel hnd s hs, hv]
    exact valAt_some_exists _ _ _ _ h1
  · intro r1 h1 r2 h2 e1 e2
    exact row_eq_of_label_eq _ (rowLabels_mergeRows_nodup series) r1 r2 h1 h2
      (e1.trans e2.symm)

def wT : DateTime := ⟨2024, 5, 10, 8, 30⟩

def wD : ChartSample := shapeChart ⟨wT, 21⟩

def wS : Series := ⟨0, "a.csv", "#22c55e", [wD], [], none⟩

theorem mergeRows_complete_last_write_witness :
    ∃ v, lastTemp wD.timeLabel wS.data = some v ∧
      (∃ r ∈ mergeRows [wS], r.timeLabel = wD.timeLabel ∧
        getKey wS.name r.values = some v) ∧
      ∀ r1 ∈ mergeRows [wS], ∀ r2 ∈ mergeRows [wS],
        r1.timeLabel = wD.timeLabel → r2.timeLabel = wD.timeLabel → r1 = r2 :=
  mergeRows_complete_last_write [wS] (by simp) wS (by simp) wD (by simp [wS])

/-- C4: the merged rows are keyed in first-encounter order of each label
under the series-major, sample-minor traversal, never re-sorted by
timestamp; `mergedData` applies the range filter after that ordering, and
the filter stage only drops rows (order of survivors preserved). -/
theorem mergeRows_first_encounter_order (series : List Series)
    (dr : DateRange) :
    rowLabels (mergeRows series) =
      firstEncounter ((series.flatMap Series.data).map ChartSample.timeLabel) ∧
    mergedData series dr = applyRangeFilter dr (mergeRows series) ∧
    (mergedData series dr).Sublist (mergeRows series) := by
  refine ⟨rowLabels_mergeRows series, rfl, ?_⟩
  unfold mergedData applyRangeFilter
  split
  · exact List.filter_sublist _
  · exact List.Sublist.refl _

/-- C10: every merged Row keeps the timestamp of the first traversal sample
whose chart label matches its key (later samples never update it); the chart
label drops the year, so instants differing only in the year share a label;
two same-label samples of one series collapse into one Row carrying the
first sample's timestamp and the last sample's temperature — and the range
filter then only ever tests that first-encountered timestamp. -/
theorem mergeRows_first_timestamp_wins (series : List Series) :
    (∀ r ∈ mergeRows series,
      firstTs r.timeLabel (series.flatMap Series.data) = some r.timestamp) ∧
    (∀ (t : DateTime) (y : Nat),
      chartLabel { t with year := y } = chartLabel t) ∧
    (∀ (s : Series) (d1 d2 : ChartSample), s.data = [d1, d2] →
      d1.timeLabel = d2.timeLabel →
      mergeRows [s] = [⟨d1.timeLabel, d1.timestamp, [(s.name, d2.temperature)]⟩]) := by
  refine ⟨?_, fun t y => rfl, ?_⟩
  · intro r hr
    have h1 : tsAt r.timeLabel (mergeRows series) = some r.timestamp :=
      tsAt_of_mem_nodup _ (rowLabels_mergeRows_nodup series) r hr
    rw [tsAt_mergeRows] at h1
    exact h1
  · intro s d1 d2 hdata hlbl
    simp [mergeRows, mergeSeries, hdata, addToRows, hlbl, setKey]

/-- `series.filter(s => !hiddenKeys.includes(s.name))`. -/
def activeSeries (series : List Series) (hiddenKeys : List String) : List Series :=
  series.filter (fun s => !(hiddenKeys.contains s.name))

/-- `activeSeries.length === 1 ? activeSeries[0].stats : null`. -/
def showStats (series : List Series) (hiddenKeys : List String) : Option Stats :=
  match activeSeries series hiddenKeys with
  | [s] => s.stats
  | _ => none

/-- C5: the displayed stats are the single active series' stats exactly when
the active count is 1, absent for 0 or ≥ 2 active series; with 3 series and
2 hidden, the remaining series' stats are shown. -/
theorem stats_visible_iff_one_active (series : List Series)
    (hiddenKeys : List String) :
    (∀ s, activeSeries series hiddenKeys = [s] →
      showStats series hiddenKeys = s.stats) ∧
    ((activeSeries series hiddenKeys).length ≠ 1 →
      showStats series hiddenKeys = none) ∧
    (∀ a b c : Series, c.name ≠ a.name → c.name ≠ b.name →
      showStats [a, b, c] [a.name, b.name] = c.stats) := by
  refine ⟨?_, ?_, ?_⟩
  · intro s h
    rw [showStats, h]
  · intro h
    cases hact : activeSeries series hiddenKeys with
    | nil => simp [showStats, hact]
    | cons s tl =>
        cases tl with
        | nil => exact absurd (by simp [hact]) h
        | cons t tl2 => simp [showStats, hact]
  · intro a b c hca hcb
    have hact : activeSeries [a, b, c] [a.name, b.name] = [c] := by
      simp [activeSeries, List.filter, hca, hcb]
    rw [showStats, hact]

/-- `toggleLine`: remove the name when present, append it when absent. -/
def toggleLine (name : String) (prev : List String) : List String :=
  if prev.contains name then prev.filter (fun n => n != name)
  else prev ++ [name]

theorem mem_toggleLine (prev : List String) (name m : String) :
    m ∈ toggleLine name prev ↔ (if m = name then m ∉ prev else m ∈ prev) := by
  unfold toggleLine
  by_cases hc : prev.contains name
  · have hmem : name ∈ prev := by simpa using hc
    rw [if_pos hc]
    by_cases hm : m = name
    · subst hm
      simp [List.mem_filter, hmem]
    · simp [List.mem_filter, hm]
  · have hmem : name ∉ prev := by simpa using hc
    rw [if_neg hc]
    by_cases hm : m = name
    · subst hm
      simp [hmem]
    · simp [hm]

/-- C8: toggling `name` flips exactly `name`'s membership in the hidden set
(removes it when present, adds it when absent, leaves every other name
unchanged), and toggling the same name twice restores the original
membership. -/
theorem toggleLine_flips_membership (prev : List String) (name m : String) :
    (m ∈ toggleLine name prev ↔ (if m = name then m ∉ prev else m ∈ prev)) ∧
    (m ∈ toggleLine name (toggleLine name prev) ↔ m ∈ prev) := by
  refine ⟨mem_toggleLine prev name m, ?_⟩
  rw [mem_toggleLine, mem_toggleLine]
  by_cases hm : m = name <;> simp [hm]

/-- One entry of the picker's `e.target.files` (only the name matters to the
core). -/
structure File where
  name : String
deriving DecidableEq, Repr

/-- `onFile`: `e.target.files ? Array.from(e.target.files).slice(0, 5) : []`. -/
def onFile (picked : Option (List File)) : List File :=
  match picked with
  | some fs => fs.take 5
  | none => []

/-- The events that write the `files` state: a picker change (`onFile`) or
`onReset` (which sets `files` to `[]`). -/
inductive FilesEvent where
  | select (picked : Option (List File))
  | reset

def filesStep (_files : List File) (e : FilesEvent) : List File :=
  match e with
  | .select picked => onFile picked
  | .reset => []

theorem onFile_length_le (picked : Option (List File)) :
    (onFile picked).length ≤ 5 := by
  cases picked <;> simp [onFile]

theorem filesStep_fold_le (evs : List FilesEvent) (st : List File)
    (h : st.length ≤ 5) : (evs.foldl filesStep st).length ≤ 5 := by
  induction evs generalizing st with
  | nil => exact h
  | cons e rest ih =>
      apply ih
      cases e with
      | select picked => exact onFile_length_le picked
      | reset => simp [filesStep]

/-- C9: every file-selection event leaves at most 5 pending files, and from
the initial empty selection every sequence of selection/reset events keeps
`|files| ≤ 5`. -/
theorem files_at_most_five (picked : Option (List File))
    (evs : List FilesEvent) :
    (onFile picked).length ≤ 5 ∧ (evs.foldl filesStep []).length ≤ 5 :=
  ⟨onFile_length_le picked, filesStep_fold_le evs [] (by simp)⟩

/-- `resampledBySeries`: for each series independently, its `resampled`
samples filtered by the period predicate on each sample's own timestamp,
keyed by series name in a plain object (`map[s.name] = rows`). -/
def resampledBySeries (series : List Series) (dr : DateRange) :
    List (String × List TableSample) :=
  series.foldl
    (fun map s =>
      setKey s.name (s.resampled.filter fun r => resampleOk dr r.timestamp) map)
    []

/-- The last series of the list carrying name `k` (later `map[s.name] = ...`
writes win). -/
def lastNamed (k : String) : List Series → Option Series
  | [] => none
  | s :: rest =>
    match lastNamed k rest with
    | some x => some x
    | none => if s.name = k then some s else none

theorem getKey_resampled_fold (dr : DateRange) (k : String)
    (l : List Series) (m0 : List (String × List TableSample)) :
    getKey k (l.foldl
      (fun map s =>
        setKey s.name (s.resampled.filter fun r => resampleOk dr r.timestamp) map)
      m0) =
      match lastNamed k l with
      | some s => some (s.resampled.filter fun r => resampleOk dr r.timestamp)
      | none => getKey k m0 := by
  induction l generalizing m0 with
  | nil => simp [lastNamed]
  | cons s rest ih =>
      rw [List.foldl_cons, ih]
      cases hln : lastNamed k rest with
      | some x => simp [lastNamed, hln]
      | none =>
          by_cases hs : s.name = k <;>
            simp [lastNamed, hln, hs, getKey_setKey]

theorem lastNamed_none_of_not_named (k : String) (l : List Series)
    (h : ∀ x ∈ l, x.name ≠ k) : lastNamed k l = none := by
  induction l with
  | nil => rfl
  | cons s rest ih =>
      have hs : ¬ s.name = k := h s (List.mem_cons_self s rest)
      have hr : lastNamed k rest = none :=
        ih fun x hx => h x (List.mem_cons_of_mem s hx)
      simp [lastNamed, hr, hs]

theorem lastNamed_eq_of_nodup (l : List Series)
    (hnd : (l.map Series.name).Nodup) (s : Series) (hs : s ∈ l) :
    lastNamed s.name l = some s := by
  induction l with
  | nil => cases hs
  | cons s0 rest ih =>
      have hhead : s0.name ∉ rest.map Series.name := (List.nodup_cons.mp hnd).1
      have hnd2 : (rest.map Series.name).Nodup := (List.nodup_cons.mp hnd).2
      rcases List.mem_cons.mp hs with h0 | h0
      · subst h0
        have hnone : lastNamed s.name rest = none := by
          refine lastNamed_none_of_not_named s.name rest fun x hx hxe => ?_
          exact hhead (hxe ▸ List.mem_map_of_mem Series.name hx)
        simp [lastNamed, hnone]
      · rw [lastNamed, ih hnd2 h0]

/-- C7: with unique series names, the resampled mapping has an entry for
every series' name whose value is exactly that series' `resampled` samples
filtered by the range predicate on each sample's own timestamp — independent
of the other series, and kept (as `some []`) even when the filter leaves
nothing. Neither this mapping nor the merged chart rows read the hidden set:
`resampledBySeries` and `mergedData` take no hidden-names argument at all. -/
theorem resampled_total_and_independent (series : List Series)
    (dr : DateRange) (hnd : (series.map Series.name).Nodup)
    (s : Series) (hs : s ∈ series) :
    getKey s.name (resampledBySeries series dr) =
      some (s.resampled.filter fun r => resampleOk dr r.timestamp) := by
  unfold resampledBySeries
  rw [getKey_resampled_fold, lastNamed_eq_of_nodup series hnd s hs]

theorem resampled_total_and_independent_witness :
    getKey wS.name (resampledBySeries [wS] ⟨none, none⟩) = some [] := by
  have h := resampled_total_and_independent [wS] ⟨none, none⟩ (by simp) wS
    (by simp)
  simpa [wS] using h

/-- A success body of `POST /api/upload`:
`{ data, stats, resampled }` (stats/resampled may be null). -/
structure UploadResponse where
  data : List RawSample
  stats : Option Stats
  resampled : Option (List RawSample)
deriving Repr

/-- A failed request, as seen in the catch block: the optional structured
`err.response.data.detail` string (absent when the chain is missing). -/
structure UploadFailure where
  detail : Option String
deriving DecidableEq, Repr

def COLORS : List String :=
  ["#22c55e", "#3b82f6", "#f59e0b", "#ef4444", "#a855f7"]

/-- The object pushed onto `results` for file `i`: shaped chart samples,
shaped resampled samples (`resampled || []`), cyclic color, server stats. -/
def shapeSeries (i : Nat) (f : File) (r : UploadResponse) : Series :=
  { id := i
    name := f.name
    color := COLORS.getD (i % COLORS.length) ""
    data := r.data.map shapeChart
    resampled := (r.resampled.getD []).map shapeTable
    stats := r.stats }

def fallbackMsg : String := "Falha no upload/processamento"

/-- `err?.response?.data?.detail || "Falha no upload/processamento"`:
the detail string when present and not the (falsy) empty string, else the
generic message. -/
def errMsg (e : UploadFailure) : String :=
  match e.detail with
  | some d => if d = "" then fallbackMsg else d
  | none => fallbackMsg

/-- The sequential `for` loop of `onUpload` over (file, response) pairs:
accumulates the shaped results buffer, stops at the first failure. -/
def runBatch : List (File × Except UploadFailure UploadResponse) → Nat →
    List Series → Except UploadFailure (List Series)
  | [], _, acc => .ok acc
  | (_, .error e) :: _, _, _ => .error e
  | (f, .ok r) :: rest, i, acc => runBatch rest (i + 1) (acc ++ [shapeSeries i f r])

/-- The pieces of component state `onUpload` writes: the Series Store and the
inline upload error message. -/
structure UploadState where
  series : List Series
  uploadError : String
deriving DecidableEq, Repr

/-- `onUpload`, with the response of each sequential request supplied as
data: no-op on an empty selection; otherwise it first clears the error and
the Series Store (`setUploadError("")`, `setSeries([])`), runs the
sequential loop, and either commits the full results buffer or surfaces one
message derived from the failure. The date-range argument is only forwarded
to the server with each request. -/
def onUpload (files : List File) (_dr : DateRange)
    (responses : List (Except UploadFailure UploadResponse))
    (st : UploadState) : UploadState :=
  if files.length = 0 then st
  else
    match runBatch (files.zip responses) 0 [] with
    | .ok results => { series := results, uploadError := "" }
    | .error e => { series := [], uploadError := errMsg e }

def cexPrior : UploadState := ⟨[wS], ""⟩

/-- C1 counterexample: a failing one-file batch after a previously committed
batch. The claim predicts the store is unchanged (still holding the earlier
series) and the surfaced message equals the present detail field (here the
empty string); the code instead leaves the store empty (it cleared it at
batch start) and surfaces the generic fallback. -/
theorem onUpload_keeps_store_cex :
    ¬ ((onUpload [⟨"b.csv"⟩] ⟨none, none⟩ [.error ⟨some ""⟩] cexPrior).series
        = cexPrior.series ∧
      (onUpload [⟨"b.csv"⟩] ⟨none, none⟩ [.error ⟨some ""⟩] cexPrior).uploadError
        = "") := by
  decide

theorem runBatch_error_at (k : Nat) :
    ∀ (files : List File) (rs : List (Except UploadFailure UploadResponse))
      (e : UploadFailure), k < files.length →
      rs[k]? = some (.error e) →
      (∀ j, j < k → ∃ r, rs[j]? = some (.ok r)) →
      ∀ (i : Nat) (acc : List Series),
        runBatch (files.zip rs) i acc = .error e := by
  induction k with
  | zero =>
      intro files rs e hk he _hok i acc
      match files, rs with
      | [], _ => simp at hk
      | _ :: _, [] => simp at he
      | f :: frest, r0 :: rrest =>
          have hr0 : r0 = .error e := by simpa using he
          subst hr0
          simp [runBatch]
  | succ k ih =>
      intro files rs e hk he hok i acc
      match files, rs with
      | [], _ => simp at hk
      | _ :: _, [] => simp at he
      | f :: frest, r0 :: rrest =>
          obtain ⟨r, hr⟩ := hok 0 (Nat.succ_pos k)
          have hr0 : r0 = .ok r := by simpa using hr
          subst hr0
          have hk2 : k < frest.length := by simpa using hk
          have he2 : rrest[k]? = some (.error e) := by simpa using he
          have hok2 : ∀ j, j < k → ∃ r2, rrest[j]? = some (.ok r2) := by
            intro j hj
            obtain ⟨r2, hr2⟩ := hok (j + 1) (by omega)
            exact ⟨r2, by simpa using hr2⟩
          simpa [runBatch] using
            ih frest rrest e hk2 he2 hok2 (i + 1) (acc ++ [shapeSeries i f r])

/-- C1 amended: when file `k` of a non-empty batch fails and all earlier
requests succeeded, the remaining files are never consulted, the partial
buffer is discarded, and the final state has an EMPTY Series Store (cleared
at batch start — it equals the prior store only when that was empty) with
exactly one surfaced message: the failure's structured detail field when
present and non-empty, else the generic fallback. -/
theorem onUpload_first_failure_clears_store (files : List File)
    (dr : DateRange) (rs : List (Except UploadFailure UploadResponse))
    (st : UploadState) (k : Nat) (e : UploadFailure)
    (hk : k < files.length)
    (he : rs[k]? = some (.error e))
    (hok : ∀ j, j < k → ∃ r, rs[j]? = some (.ok r)) :
    onUpload files dr rs st = ⟨[], errMsg e⟩ := by
  have hlen : ¬ files.length = 0 := by omega
  unfold onUpload
  rw [if_neg hlen, runBatch_error_at k files rs e hk he hok 0 []]

theorem onUpload_first_failure_witness :
    onUpload [⟨"b.csv"⟩] ⟨none, none⟩ [.error ⟨some "boom"⟩] cexPrior =
      ⟨[], "boom"⟩ := by
  have h := onUpload_first_failure_clears_store [⟨"b.csv"⟩] ⟨none, none⟩
    [.error ⟨some "boom"⟩] cexPrior 0 ⟨some "boom"⟩ (by decide) rfl
    (fun j hj => absurd hj (by omega))
  rw [h]
  decide
